import Mathlib

/-!
# Verification of the snap7-db-sync core

A shallow embedding of `src/snap7_db_sync/sync_engine.py`:

* the blueprint compiler `Snap7DBSync.parse_siemens_db` (both the SCL
  `STRUCT` grammar and the TIA table grammar),
* the binary codec (`Snap7DBSync.extract_data` for decoding, the
  read-patch loop of `Snap7DBSync.write_to_plc` for encoding),
* the shared-buffer publisher `Snap7DBSync._update_shared`,
* the change-detection logic of `Snap7DBSync._logging_loop`, and
* the transactional writer `Snap7DBSync.write_to_plc`.

Modelling conventions:

* Byte buffers (`bytes` / `bytearray`) are `List ℕ` whose entries are
  intended to be `< 256`; theorems carry that bound as a hypothesis where
  it matters.
* Python integers are `ℤ`, byte offsets are `ℕ`.
* The regex lexers of `parse_siemens_db` are abstracted: the compilers
  take the list of matched declarations (name/type and, for the tabular
  grammar, the explicit `byte.bit` offsets), exactly the data the
  `re.findall` calls yield.  Unrecognized type tokens are filtered by the
  source before any layout arithmetic, so the declaration lists range
  over recognized types only.
* Python floats appearing as Real field values are modelled by their
  IEEE-754 binary32 bit pattern (a `ℕ < 2^32`); `b32ToRat` maps a finite
  pattern to its exact rational value, and Python's `round(x, 4)` is
  modelled by exact decimal round-half-even on rationals.
* Fallible Python code (statements that can raise) returns `Except Unit`.
-/

namespace Snap7DB

/-- The recognized S7 element types: the keys of the `types` table in
`parse_siemens_db` (already lowercased, as the source lowercases before
lookup). -/
inductive S7Type where
  | bool | byte | word | int | dword | dint | real | time
deriving DecidableEq

/-- `types[t][0]` in `parse_siemens_db`: the byte size of each type. -/
def typeSize : S7Type → ℕ
  | .bool => 1 | .byte => 1 | .word => 2 | .int => 2
  | .dword => 4 | .dint => 4 | .real => 4 | .time => 4

/-- `types[t][1]` in `parse_siemens_db`: the alignment class of each type. -/
def typeAlign : S7Type → ℕ
  | .bool => 0 | .byte => 1 | .word => 2 | .int => 2
  | .dword => 2 | .dint => 2 | .real => 2 | .time => 2

/-- One entry of the `data` dictionary produced by `parse_siemens_db`:
`{'type': ..., 'offset': ..., 'bit': ..., 'size': ...}`. -/
structure FieldInfo where
  type : S7Type
  offset : ℕ
  bit : ℕ
  size : ℕ
deriving DecidableEq

/-- A memory map, as an insertion-ordered association list mirroring the
Python `dict` (`data` in `parse_siemens_db`, `self.data_struct` later). -/
abbrev TagDict := List (String × FieldInfo)

/-- `data[name] = v` on a Python dict: overwrite in place if the key is
present, else append. -/
def dictInsert (d : TagDict) (k : String) (v : FieldInfo) : TagDict :=
  if d.any (fun p => p.1 = k) then
    d.map (fun p => if p.1 = k then (k, v) else p)
  else d ++ [(k, v)]

/-- Dictionary lookup (`tag_dict[name]` / `name in self.data_struct`). -/
def lookupTag (d : TagDict) (k : String) : Option FieldInfo :=
  (d.find? (fun p => p.1 = k)).map Prod.snd

/-- `data.values()`. -/
def vals (d : TagDict) : List FieldInfo := d.map Prod.snd

/-- The SCL cursor loop of `parse_siemens_db` (ENGINE A), fed by the
declarations matched by the `'Name : Type;'` pattern, restricted to
recognized types (the source skips unrecognized ones without touching
the cursor).  State: the dict built so far, the byte cursor `byte_idx`
and the bit cursor `bit_idx`. -/
def parseSCL : List (String × S7Type) → TagDict → ℕ → ℕ → TagDict
  | [], d, _, _ => d
  | (name, t) :: rest, d, b, i =>
    if t = .bool then
      let b' := if i > 7 then b + 1 else b
      let i' := if i > 7 then 0 else i
      parseSCL rest (dictInsert d name ⟨t, b', i', typeSize t⟩) b' (i' + 1)
    else
      let b1 := if i > 0 then b + 1 else b
      let b2 := if typeAlign t > 1 ∧ b1 % 2 ≠ 0 then b1 + 1 else b1
      parseSCL rest (dictInsert d name ⟨t, b2, 0, typeSize t⟩) (b2 + typeSize t) 0

/-- The TIA table loop of `parse_siemens_db` (ENGINE B), fed by the
declarations matched by the `'Name Type Offset.Bit'` pattern, restricted
to recognized types.  Offsets are taken verbatim from the text. -/
def parseTable : List (String × S7Type × ℕ × ℕ) → TagDict → TagDict
  | [], d => d
  | (name, t, ob, bi) :: rest, d =>
    parseTable rest (dictInsert d name ⟨t, ob, bi, typeSize t⟩)

/-- The `key=lambda x: x['offset'] + (0.1 * x['bit'])` ranking of
`parse_siemens_db`, scaled by 10 to stay in `ℕ` (the ordering is the
same for the exact values the float expression approximates). -/
def keyOf (fi : FieldInfo) : ℕ := 10 * fi.offset + fi.bit

/-- Python `max(xs, key=key)`: first element achieving the maximal key;
`none` on the empty list. -/
def maxByKey (key : FieldInfo → ℕ) : List FieldInfo → Option FieldInfo
  | [] => none
  | x :: xs => some (xs.foldl (fun best y => if key y > key best then y else best) x)

/-- The final validation and size calculation of `parse_siemens_db`:
total length is the max-key field's offset plus its size (1 for Bool),
rounded up to an even byte boundary; an empty dict yields `(0, {})`. -/
def finalizeMap (data : TagDict) : ℕ × TagDict :=
  match maxByKey keyOf (vals data) with
  | none => (0, data)
  | some last =>
    let ts := last.offset + (if last.type = .bool then 1 else last.size)
    ((if ts % 2 ≠ 0 then ts + 1 else ts), data)

/-- `parse_siemens_db` on a blueprint matched by the SCL grammar. -/
def parse_siemens_db_scl (decls : List (String × S7Type)) : ℕ × TagDict :=
  finalizeMap (parseSCL decls [] 0 0)

/-- `parse_siemens_db` on a blueprint matched by the TIA table grammar. -/
def parse_siemens_db_table (decls : List (String × S7Type × ℕ × ℕ)) : ℕ × TagDict :=
  finalizeMap (parseTable decls [])

/-! ## Decoding (`Snap7DBSync.extract_data`) -/

/-- A value of the decoded snapshot dictionary: Python `bool`, `int`, or
`float` (floats rendered as exact rationals, see the file header). -/
inductive PlcVal where
  | vbool (b : Bool)
  | vint (n : ℤ)
  | vreal (q : ℚ)
deriving DecidableEq

/-- Two's-complement reinterpretation done by `struct.unpack('>h')` and
`('>i')`: an unsigned `w`-bit value as a signed one. -/
def toSigned (u : ℕ) (w : ℕ) : ℤ :=
  if u < 2 ^ (w - 1) then (u : ℤ) else (u : ℤ) - 2 ^ w

/-- Big-endian byte-list to unsigned integer, as `struct.unpack` reads a
big-endian buffer. -/
def decBE (bs : List ℕ) : ℕ := bs.foldl (fun a x => 256 * a + x) 0

/-- Exact rational value of a finite IEEE-754 binary32 bit pattern (the
number `struct.unpack('>f', ...)` yields; patterns with exponent field
255 are infinities/NaNs and lie outside this model). -/
def b32ToRat (bits : ℕ) : ℚ :=
  let sign : ℕ := bits / 2 ^ 31 % 2
  let expF : ℕ := bits / 2 ^ 23 % 2 ^ 8
  let mant : ℕ := bits % 2 ^ 23
  let mag : ℚ :=
    if expF = 0 then (mant : ℚ) * (2 : ℚ) ^ (-(149 : ℤ))
    else ((2 ^ 23 + mant : ℕ) : ℚ) * (2 : ℚ) ^ ((expF : ℤ) - 150)
  if sign = 1 then -mag else mag

/-- Round-half-even of a rational to an integer, the tie-breaking rule of
Python's `round`. -/
def roundHalfEven (q : ℚ) : ℤ :=
  let f := ⌊q⌋
  let r := q - (f : ℚ)
  if r < 1 / 2 then f
  else if (1 : ℚ) / 2 < r then f + 1
  else if f % 2 = 0 then f else f + 1

/-- `round(x, 4)` of `extract_data`, modelled exactly on rationals. -/
def round4 (q : ℚ) : ℚ := (roundHalfEven (q * 10000) : ℚ) / 10000

/-- The multi-byte branch of `extract_data`: `struct.unpack` of a full
slice, with the Real result rounded to four decimals. -/
def decodeMulti (t : S7Type) (bs : List ℕ) : PlcVal :=
  let u := decBE bs
  match t with
  | .word => .vint u
  | .dword => .vint u
  | .int => .vint (toSigned u 16)
  | .dint => .vint (toSigned u 32)
  | .time => .vint (toSigned u 32)
  | .real => .vreal (round4 (b32ToRat u))
  | .bool => .vint u
  | .byte => .vint u

/-- One iteration of the `extract_data` loop on field `fi`.

* Bool/Byte index the frame directly; an out-of-range index raises
  `IndexError`, which the source catches and turns into `None`
  (`Except.ok none` here).
* Multi-byte types slice `data_byte[offset:offset+size]`; a slice shorter
  than `size` makes `struct.unpack` raise `struct.error`, which the
  source's `except IndexError` does NOT catch, so the exception escapes
  (`Except.error` here). -/
def extractField (frame : List ℕ) (fi : FieldInfo) : Except Unit (Option PlcVal) :=
  match fi.type with
  | .bool =>
    match frame[fi.offset]? with
    | some b => .ok (some (.vbool (b / 2 ^ fi.bit % 2 == 1)))
    | none => .ok none
  | .byte =>
    match frame[fi.offset]? with
    | some b => .ok (some (.vint b))
    | none => .ok none
  | t =>
    let bs := (frame.drop fi.offset).take fi.size
    if bs.length < fi.size then .error ()
    else .ok (some (decodeMulti t bs))

/-- `Snap7DBSync.extract_data`: decode every field of the map, in map
order; a `struct.error` anywhere aborts the whole call. -/
def extractData (frame : List ℕ) : TagDict → Except Unit (List (String × Option PlcVal))
  | [] => .ok []
  | (n, fi) :: rest => do
    let v ← extractField frame fi
    let r ← extractData frame rest
    .ok ((n, v) :: r)

/-! ## Encoding (`Snap7DBSync.write_to_plc` patch loop and the
`snap7.util.set_*` helpers it calls)

The `snap7.util` setters are an external library, specified at the
interface boundary; each is modelled from the spec's description of the
encoder ("Bool sets a single bit at the field's byte/bit position
without disturbing sibling bits in the same byte; Byte overwrites one
byte; multi-byte integer and float types are written big-endian at the
field's offset, fully replacing those bytes") together with the
documented `struct.pack` range checks. -/

/-- Big-endian bytes of an unsigned value, `k` bytes wide, as
`struct.pack` lays them out (callers guard `m < 2^(8*k)`). -/
def encBE : ℕ → ℕ → List ℕ
  | 0, _ => []
  | k + 1, m => m / 2 ^ (8 * k) :: encBE k (m % 2 ^ (8 * k))

/-- Python slice assignment `buf[o:o+len(bs)] = bs` on a `bytearray`:
the start index clamps to the length; writing past the end extends the
array. -/
def spliceBytes (frame : List ℕ) (offset : ℕ) (bs : List ℕ) : List ℕ :=
  let o := min offset frame.length
  frame.take o ++ bs ++ frame.drop (o + bs.length)

/-- Modelled from the spec: `snap7.util.set_bool` (external library) —
sets a single bit at the byte/bit position without disturbing sibling
bits, by reading the current byte and adding or subtracting the bit's
weight when the stored value differs; an out-of-range byte index or a
resulting byte value above 255 raises. -/
def set_bool (frame : List ℕ) (offset bit : ℕ) (value : Bool) : Except Unit (List ℕ) :=
  match frame[offset]? with
  | none => .error ()
  | some b =>
    let cur := b / 2 ^ bit % 2 == 1
    if cur = value then .ok frame
    else if value then
      if b + 2 ^ bit ≤ 255 then .ok (frame.set offset (b + 2 ^ bit)) else .error ()
    else .ok (frame.set offset (b - 2 ^ bit))

/-- Modelled from the spec: `snap7.util.set_int` (external library) —
`struct.pack('>h', v)` spliced at the offset; out-of-range values make
`struct.pack` raise. -/
def set_int (frame : List ℕ) (offset : ℕ) (v : ℤ) : Except Unit (List ℕ) :=
  if v < -(2 ^ 15) ∨ (2 ^ 15 : ℤ) ≤ v then .error ()
  else .ok (spliceBytes frame offset (encBE 2 (v % 2 ^ 16).toNat))

/-- Modelled from the spec: `snap7.util.set_word` (external library) —
`struct.pack('>H', v)` spliced at the offset. -/
def set_word (frame : List ℕ) (offset : ℕ) (v : ℤ) : Except Unit (List ℕ) :=
  if v < 0 ∨ (2 ^ 16 : ℤ) ≤ v then .error ()
  else .ok (spliceBytes frame offset (encBE 2 v.toNat))

/-- Modelled from the spec: `snap7.util.set_dint` (external library) —
`struct.pack('>i', v)` spliced at the offset. -/
def set_dint (frame : List ℕ) (offset : ℕ) (v : ℤ) : Except Unit (List ℕ) :=
  if v < -(2 ^ 31) ∨ (2 ^ 31 : ℤ) ≤ v then .error ()
  else .ok (spliceBytes frame offset (encBE 4 (v % 2 ^ 32).toNat))

/-- Modelled from the spec: `snap7.util.set_dword` (external library) —
`struct.pack('>I', v)` spliced at the offset. -/
def set_dword (frame : List ℕ) (offset : ℕ) (v : ℤ) : Except Unit (List ℕ) :=
  if v < 0 ∨ (2 ^ 32 : ℤ) ≤ v then .error ()
  else .ok (spliceBytes frame offset (encBE 4 v.toNat))

/-- Modelled from the spec: `snap7.util.set_real` (external library) —
`struct.pack('>f', v)`: the four big-endian bytes of the value's binary32
pattern, spliced at the offset. -/
def set_real (frame : List ℕ) (offset : ℕ) (bits : ℕ) : Except Unit (List ℕ) :=
  .ok (spliceBytes frame offset (encBE 4 (bits % 2 ^ 32)))

/-- `current_buffer[offset] = int(value) & 0xFF` in `write_to_plc`:
single-index assignment raises `IndexError` past the end. -/
def set_byte (frame : List ℕ) (offset : ℕ) (v : ℤ) : Except Unit (List ℕ) :=
  if offset < frame.length then .ok (frame.set offset (v % 256).toNat)
  else .error ()

/-- A value of a pending write set, after the coercion `write_to_plc`
applies for its target field (`bool(value)` / `int(value)` /
`float(value)`): `wbool` for Bool targets, `wint` for the integer
targets, `wreal` for Real targets carrying the binary32 bit pattern the
float conversion produces.  A constructor mismatched against the target
type models a value whose coercion chain fails and is conservatively an
encoding error. -/
inductive WriteVal where
  | wbool (b : Bool)
  | wint (n : ℤ)
  | wreal (bits : ℕ)
deriving DecidableEq

/-- `bool(value)` in Python: nonzero test; for a float, the binary32
pattern with the sign bit masked is zero exactly for ±0.0. -/
def toPyBool : WriteVal → Bool
  | .wbool b => b
  | .wint n => n ≠ 0
  | .wreal bits => bits % 2 ^ 31 ≠ 0

/-- Truncation toward zero, the behavior of Python `int(float)`. -/
def truncQ (q : ℚ) : ℤ := if 0 ≤ q then ⌊q⌋ else ⌈q⌉

/-- `int(value)` in Python: identity on ints, 0/1 on bools, truncation
on finite floats; `int(nan)`/`int(inf)` raises. -/
def toPyInt : WriteVal → Except Unit ℤ
  | .wbool b => .ok (if b then 1 else 0)
  | .wint n => .ok n
  | .wreal bits =>
    if bits / 2 ^ 23 % 2 ^ 8 = 255 then .error ()
    else .ok (truncQ (b32ToRat bits))

/-- Binary32 pattern of an integer, rounding half-to-even as
`struct.pack('>f', float(v))` does; magnitudes at or above `2^128`
overflow and raise. -/
def intToB32 (v : ℤ) : Except Unit ℕ :=
  if v = 0 then .ok 0 else
  let s : ℕ := if v < 0 then 1 else 0
  let a := v.natAbs
  let e := Nat.log2 a
  if e ≤ 23 then .ok (s * 2 ^ 31 + (e + 127) * 2 ^ 23 + (a * 2 ^ (23 - e) - 2 ^ 23))
  else
    let m := (roundHalfEven ((a : ℚ) / (2 : ℚ) ^ (e - 23))).toNat
    let m' := if m = 2 ^ 24 then 2 ^ 23 else m
    let e' := if m = 2 ^ 24 then e + 1 else e
    if e' > 127 then .error () else .ok (s * 2 ^ 31 + (e' + 127) * 2 ^ 23 + (m' - 2 ^ 23))

/-- `float(value)` then binary32 conversion by `struct.pack('>f', ...)`. -/
def toPyFloatBits : WriteVal → Except Unit ℕ
  | .wbool b => intToB32 (if b then 1 else 0)
  | .wint n => intToB32 n
  | .wreal bits => .ok (bits % 2 ^ 32)

/-- One iteration of the patch loop in `write_to_plc`: unknown names are
skipped, otherwise the type-dispatched setter is applied. -/
def applyChange (tags : TagDict) (frame : List ℕ) (c : String × WriteVal) :
    Except Unit (List ℕ) :=
  match lookupTag tags c.1 with
  | none => .ok frame
  | some fi =>
    match fi.type with
    | .bool => set_bool frame fi.offset fi.bit (toPyBool c.2)
    | .int => do set_int frame fi.offset (← toPyInt c.2)
    | .real => do set_real frame fi.offset (← toPyFloatBits c.2)
    | .word => do set_word frame fi.offset (← toPyInt c.2)
    | .byte => do set_byte frame fi.offset (← toPyInt c.2)
    | .dint => do set_dint frame fi.offset (← toPyInt c.2)
    | .time => do set_dint frame fi.offset (← toPyInt c.2)
    | .dword => do set_dword frame fi.offset (← toPyInt c.2)

/-- The whole patch loop of `write_to_plc` over a change set (dict
insertion order); the first raising setter aborts the call. -/
def applyChanges (tags : TagDict) (frame : List ℕ) :
    List (String × WriteVal) → Except Unit (List ℕ)
  | [] => .ok frame
  | c :: cs => do applyChanges tags (← applyChange tags frame c) cs

/-! ## Shared-buffer publisher (`Snap7DBSync._update_shared`) -/

/-- The engine-visible state of the shared-memory segment: the byte
region (`self.shm.buf`, fixed capacity `shm_size`) and the high-water
mark `self._last_len`. -/
structure ShmState where
  buf : List ℕ
  lastLen : ℕ
deriving DecidableEq

/-- Exact-width range write `mv[o:o+len(bs)] = bs` on the memoryview. -/
def writeRange (buf : List ℕ) (o : ℕ) (bs : List ℕ) : List ℕ :=
  buf.take o ++ bs ++ buf.drop (o + bs.length)

/-- `Snap7DBSync._update_shared`: truncate the payload to the capacity,
copy it to offset 0, zero-fill the stale tail up to the previous
high-water mark, and record the new mark. -/
def update_shared (shmSize : ℕ) (st : ShmState) (payload : List ℕ) : ShmState :=
  let p := if payload.length > shmSize then payload.take shmSize else payload
  let pl := p.length
  let buf1 := writeRange st.buf 0 p
  let buf2 :=
    if st.lastLen > pl then writeRange buf1 pl (List.replicate (st.lastLen - pl) 0)
    else buf1
  { buf := buf2, lastLen := pl }

/-! ## The polling loop (`Snap7DBSync._logging_loop`) -/

/-- The loop-carried state of `_logging_loop`: `last_values` (starting
as `None`) plus the shared segment. -/
structure EngineState where
  lastValues : Option (List (String × Option PlcVal))
  shm : ShmState

/-- One successful-read cycle of `_logging_loop`: decode the frame,
publish to shared memory exactly when the decoded snapshot differs from
`last_values`, and remember the snapshot.  A decoding exception takes
the loop's error path (backoff, no publish).  `ser` abstracts
`json.dumps(values).encode('utf-8')`, whose text grammar is outside this
model.  Returns the new state and whether a publish happened. -/
def cycleStep (shmSize : ℕ) (ser : List (String × Option PlcVal) → List ℕ)
    (tags : TagDict) (st : EngineState) (frame : List ℕ) : EngineState × Bool :=
  match extractData frame tags with
  | .error _ => (st, false)
  | .ok values =>
    if some values ≠ st.lastValues then
      ({ lastValues := some values, shm := update_shared shmSize st.shm (ser values) }, true)
    else (st, false)

/-- Iterate `cycleStep` over the frames successive reads return,
counting publishes. -/
def runCycles (shmSize : ℕ) (ser : List (String × Option PlcVal) → List ℕ)
    (tags : TagDict) (st : EngineState) : List (List ℕ) → EngineState × ℕ
  | [] => (st, 0)
  | f :: fs =>
    let s1 := cycleStep shmSize ser tags st f
    let s2 := runCycles shmSize ser tags s1.1 fs
    (s2.1, (if s1.2 then 1 else 0) + s2.2)

/-! ## Transactional writer (`Snap7DBSync.write_to_plc`) -/

/-- Observable outcome of one `write_to_plc` call: its return value and
the transport/lock interactions it performed. -/
structure WriteOutcome where
  success : Bool
  reads : ℕ
  writes : ℕ
  tookLock : Bool
deriving DecidableEq

/-- `Snap7DBSync.write_to_plc`.  `changes = none` models an argument
that is not a dict (the `isinstance` guard).  `readRes` is the outcome
of the single `self._read_db()` transport read (`.error` = it raised);
`writeOk` tells whether the single `self.client.db_write` transport
write succeeds.  Guard failures return before the lock; any exception
inside the locked block is caught and reported as `False`. -/
def write_to_plc (tags : TagDict) (readRes : Except Unit (List ℕ)) (writeOk : Bool)
    (changes : Option (List (String × WriteVal))) : WriteOutcome :=
  match changes with
  | none => ⟨false, 0, 0, false⟩
  | some cs =>
    if cs.isEmpty then ⟨false, 0, 0, false⟩
    else
      match readRes with
      | .error _ => ⟨false, 1, 0, true⟩
      | .ok frame =>
        match applyChanges tags frame cs with
        | .error _ => ⟨false, 1, 0, true⟩
        | .ok _ => if writeOk then ⟨true, 1, 1, true⟩ else ⟨false, 1, 1, true⟩

/-! ## Claims -/

/-- C5: compiling a declarative-grammar blueprint whose struct block
declares, in order, the field sequence `[Bool, Bool, Int, Bool]` assigns
the first Bool to byte 0 bit 0, the second Bool to byte 0 bit 1, the Int
to byte offset 2 (word-aligned), and the trailing Bool to byte 4 bit 0,
with a resulting `totalLength` of 6. -/
theorem C5_scl_layout :
    parse_siemens_db_scl [("a", .bool), ("b", .bool), ("c", .int), ("d", .bool)] =
      (6, [("a", ⟨.bool, 0, 0, 1⟩), ("b", ⟨.bool, 0, 1, 1⟩),
           ("c", ⟨.int, 2, 0, 2⟩), ("d", ⟨.bool, 4, 0, 1⟩)]) := by
  decide

/-- C6: compiling a tabular-grammar blueprint with entries
`Tank_level Int 2.0` and `Pump_On Bool 4.1` records the stated offsets
verbatim (Tank_level at offset 2 bit 0 size 2, Pump_On at offset 4 bit 1
size 1) and rounds the total length up from 5 to the even value 6. -/
theorem C6_table_layout :
    parse_siemens_db_table [("Tank_level", .int, 2, 0), ("Pump_On", .bool, 4, 1)] =
      (6, [("Tank_level", ⟨.int, 2, 0, 2⟩), ("Pump_On", ⟨.bool, 4, 1, 1⟩)]) := by
  decide

/-- C10 (implicit): calling the transactional writer with an empty
change set, or with an argument that is not a mapping, returns false
immediately with no transport read, no transport write and no lock
acquisition, whatever the transport would have done. -/
theorem C10_writer_guard (tags : TagDict) (readRes : Except Unit (List ℕ))
    (writeOk : Bool) :
    write_to_plc tags readRes writeOk none = ⟨false, 0, 0, false⟩ ∧
    write_to_plc tags readRes writeOk (some []) = ⟨false, 0, 0, false⟩ := by
  constructor <;> rfl

/-- C2 (code bug): the claim says a field whose byte range falls outside
a short frame decodes to `None` and decode never raises; for a
multi-byte field the short slice makes `struct.unpack` raise
`struct.error`, which the source's `except IndexError` does not catch —
evaluated here at an Int field of a map decoded against an empty frame,
where `extract_data` raises instead of returning `None`. -/
theorem C2_short_frame_raises :
    extractData [] [("x", ⟨.int, 0, 0, 2⟩)] = .error () ∧
    extractData [] [("b", ⟨.bool, 0, 0, 1⟩)] = .ok [("b", none)] := by
  constructor <;> rfl

/-- C3 (counterexample): under the tabular grammar the computed
`totalLength` is NOT an upper bound for `byteOffset + size` of every
field.  With entries `A Real 1.0` and `B Bool 2.0` the max-key field is
the Bool, the total length becomes 4, yet the Real field spans bytes
1–4, ending at 5 > 4. -/
theorem C3_counterexample :
    (parse_siemens_db_table [("A", .real, 1, 0), ("B", .bool, 2, 0)]).2 ≠ [] ∧
    ¬ (∀ p ∈ (parse_siemens_db_table [("A", .real, 1, 0), ("B", .bool, 2, 0)]).2,
        p.2.offset + (if p.2.type = .bool then 1 else p.2.size) ≤
          (parse_siemens_db_table [("A", .real, 1, 0), ("B", .bool, 2, 0)]).1) := by
  decide

/-- C9: for every non-empty change set, a single call to the
transactional writer issues at most one transport read and at most one
transport write; if the read step fails it issues no transport write at
all and returns false rather than raising. -/
theorem C9_writer_transport (tags : TagDict) (readRes : Except Unit (List ℕ))
    (writeOk : Bool) (cs : List (String × WriteVal)) (hne : cs ≠ []) :
    (write_to_plc tags readRes writeOk (some cs)).reads ≤ 1 ∧
    (write_to_plc tags readRes writeOk (some cs)).writes ≤ 1 ∧
    (readRes = .error () →
      (write_to_plc tags readRes writeOk (some cs)).writes = 0 ∧
      (write_to_plc tags readRes writeOk (some cs)).success = false) := by
  cases cs with
  | nil => exact absurd rfl hne
  | cons c cs =>
    unfold write_to_plc
    cases readRes with
    | error e => simp
    | ok frame =>
      cases h : applyChanges tags frame (c :: cs) with
      | error e => simp [h]
      | ok f => cases writeOk <;> simp [h]

/-- C9 witness: the guarantees instantiated at a concrete one-field map,
a failing read and a singleton change set. -/
theorem C9_writer_transport_witness :
    (write_to_plc [("x", ⟨.int, 0, 0, 2⟩)] (.error ()) true
        (some [("x", .wint 5)])).reads ≤ 1 ∧
    (write_to_plc [("x", ⟨.int, 0, 0, 2⟩)] (.error ()) true
        (some [("x", .wint 5)])).writes ≤ 1 ∧
    ((.error () : Except Unit (List ℕ)) = .error () →
      (write_to_plc [("x", ⟨.int, 0, 0, 2⟩)] (.error ()) true
          (some [("x", .wint 5)])).writes = 0 ∧
      (write_to_plc [("x", ⟨.int, 0, 0, 2⟩)] (.error ()) true
          (some [("x", .wint 5)])).success = false) :=
  C9_writer_transport [("x", ⟨.int, 0, 0, 2⟩)] (.error ()) true
    [("x", .wint 5)] (by decide)

/-- `mv[:len] = payload` at offset 0. -/
lemma writeRange_zero (buf p : List ℕ) : writeRange buf 0 p = p ++ buf.drop p.length := by
  simp [writeRange]

/-- C7: for every two consecutive publishes where the first payload has
length `n` and the second length `m < n` (both within capacity), after
the second publish bytes `[0, m)` hold the new payload and bytes
`[m, n)` are zero-filled. -/
theorem C7_shrinking_zero_fill (shmSize : ℕ) (st : ShmState) (p1 p2 : List ℕ)
    (h1 : p1.length ≤ shmSize) (h2 : p2.length ≤ shmSize)
    (hlt : p2.length < p1.length) :
    ((update_shared shmSize (update_shared shmSize st p1) p2).buf.take p2.length = p2) ∧
    (∀ i, p2.length ≤ i → i < p1.length →
      (update_shared shmSize (update_shared shmSize st p1) p2).buf[i]? = some 0) := by
  have hn' : ¬ p1.length > shmSize := not_lt.mpr h1
  have hm' : ¬ p2.length > shmSize := not_lt.mpr h2
  set st1 := update_shared shmSize st p1 with hst1
  have hlast : st1.lastLen = p1.length := by
    rw [hst1]; simp only [update_shared]; rw [if_neg hn']
  have hbuf : (update_shared shmSize st1 p2).buf
      = p2 ++ (List.replicate (p1.length - p2.length) 0
          ++ (writeRange st1.buf 0 p2).drop
              (p2.length + (p1.length - p2.length))) := by
    simp only [update_shared]
    rw [if_neg hm', hlast, if_pos hlt]
    show writeRange (writeRange st1.buf 0 p2) p2.length _ = _
    rw [writeRange]
    rw [List.length_replicate]
    rw [writeRange_zero, List.take_left' rfl, List.append_assoc]
  constructor
  · rw [hbuf, List.take_left' rfl]
  · intro i hmi hin
    rw [hbuf, List.getElem?_append_right hmi, List.getElem?_append_left]
    · exact List.getElem?_replicate_of_lt (by omega)
    · rw [List.length_replicate]; omega

/-- C7 witness: publishing a 10-byte payload then a 6-byte payload into
a 16-byte region leaves bytes `[6, 10)` zero-filled. -/
theorem C7_shrinking_zero_fill_witness :
    ((update_shared 16 (update_shared 16 ⟨List.replicate 16 7, 0⟩
        [1, 2, 3, 4, 5, 6, 7, 8, 9, 10]) [11, 12, 13, 14, 15, 16]).buf.take 6 =
      [11, 12, 13, 14, 15, 16]) ∧
    (∀ i, 6 ≤ i → i < 10 →
      (update_shared 16 (update_shared 16 ⟨List.replicate 16 7, 0⟩
          [1, 2, 3, 4, 5, 6, 7, 8, 9, 10]) [11, 12, 13, 14, 15, 16]).buf[i]? = some 0) :=
  C7_shrinking_zero_fill 16 ⟨List.replicate 16 7, 0⟩
    [1, 2, 3, 4, 5, 6, 7, 8, 9, 10] [11, 12, 13, 14, 15, 16]
    (by decide) (by decide) (by decide)

/-- Once `last_values` equals the snapshot every following frame decodes
to, no further cycle publishes. -/
lemma runCycles_stable (shmSize : ℕ) (ser : List (String × Option PlcVal) → List ℕ)
    (tags : TagDict) (s : List (String × Option PlcVal)) :
    ∀ (fs : List (List ℕ)) (st : EngineState), st.lastValues = some s →
      (∀ fr ∈ fs, extractData fr tags = .ok s) →
      (runCycles shmSize ser tags st fs).2 = 0 := by
  intro fs
  induction fs with
  | nil => intro st _ _; rfl
  | cons f fs ih =>
    intro st hst hall
    have hf := hall f (List.mem_cons_self _ _)
    have hstep : cycleStep shmSize ser tags st f = (st, false) := by
      simp [cycleStep, hf, hst]
    simp only [runCycles, hstep]
    simpa using ih st hst (fun fr hfr => hall fr (List.mem_cons_of_mem _ hfr))

/-- C4: in every polling cycle the engine writes to the shared buffer if
and only if the newly decoded snapshot differs (by value equality) from
the previous cycle's snapshot; consequently a run of `N ≥ 1` cycles whose
frames all decode to the same snapshot, starting at loop entry
(`last_values = None`), publishes exactly once. -/
theorem C4_publish_iff_changed (shmSize : ℕ)
    (ser : List (String × Option PlcVal) → List ℕ) (tags : TagDict)
    (shm0 : ShmState) (frames : List (List ℕ)) (s : List (String × Option PlcVal))
    (hne : frames ≠ [])
    (hall : ∀ fr ∈ frames, extractData fr tags = .ok s) :
    (∀ (st : EngineState) (fr : List ℕ) (values : List (String × Option PlcVal)),
        extractData fr tags = .ok values →
        ((cycleStep shmSize ser tags st fr).2 = true ↔ some values ≠ st.lastValues)) ∧
    (runCycles shmSize ser tags ⟨none, shm0⟩ frames).2 = 1 := by
  constructor
  · intro st fr values hfr
    by_cases hc : some values ≠ st.lastValues
    · simp [cycleStep, hfr, hc]
    · simp [cycleStep, hfr, hc]
  · cases frames with
    | nil => exact absurd rfl hne
    | cons f fs =>
      have hf := hall f (List.mem_cons_self _ _)
      have hstep : cycleStep shmSize ser tags ⟨none, shm0⟩ f =
          (⟨some s, update_shared shmSize shm0 (ser s)⟩, true) := by
        simp [cycleStep, hf]
      simp only [runCycles, hstep]
      have h0 := runCycles_stable shmSize ser tags s fs
        ⟨some s, update_shared shmSize shm0 (ser s)⟩ rfl
        (fun fr hfr => hall fr (List.mem_cons_of_mem _ hfr))
      simp [h0]

/-- C4 witness: three identical frames over a one-Bool map publish
exactly once. -/
theorem C4_publish_iff_changed_witness :
    ([[1], [1], [1]] : List (List ℕ)) ≠ [] ∧
    ((∀ (st : EngineState) (fr : List ℕ) (values : List (String × Option PlcVal)),
        extractData fr [("x", ⟨.bool, 0, 0, 1⟩)] = .ok values →
        ((cycleStep 8 (fun _ => [1]) [("x", ⟨.bool, 0, 0, 1⟩)] st fr).2 = true ↔
          some values ≠ st.lastValues)) ∧
      (runCycles 8 (fun _ => [1]) [("x", ⟨.bool, 0, 0, 1⟩)]
        ⟨none, ⟨List.replicate 8 0, 0⟩⟩ [[1], [1], [1]]).2 = 1) :=
  ⟨by decide,
    C4_publish_iff_changed 8 (fun _ => [1]) [("x", ⟨.bool, 0, 0, 1⟩)]
      ⟨List.replicate 8 0, 0⟩ [[1], [1], [1]] [("x", some (.vbool true))]
      (by decide) (by intro fr hfr; fin_cases hfr <;> rfl)⟩

/-- Setting a clear bit by adding its weight keeps the byte in range and
makes the bit read back as 1; clearing a set bit by subtracting reads
back as 0.  (Bytes and bit indices are bounded, so this is a finite
check.) -/
lemma bit_set_sound : ∀ b < 256, ∀ i < 8,
    (b / 2 ^ i % 2 ≠ 1 → b + 2 ^ i ≤ 255 ∧ (b + 2 ^ i) / 2 ^ i % 2 = 1) ∧
    (b / 2 ^ i % 2 = 1 → (b - 2 ^ i) / 2 ^ i % 2 ≠ 1) := by
  set_option maxRecDepth 2000 in decide

/-- Adding or subtracting one bit's weight never changes a different
bit of the byte. -/
lemma bit_set_preserves : ∀ b < 256, ∀ i < 8, ∀ j < 8,
    (i = j) ∨
    ((b / 2 ^ i % 2 ≠ 1 → (b + 2 ^ i) / 2 ^ j % 2 = b / 2 ^ j % 2) ∧
     (b / 2 ^ i % 2 = 1 → (b - 2 ^ i) / 2 ^ j % 2 = b / 2 ^ j % 2)) := by
  set_option maxRecDepth 4000 in decide

/-- C8: in a map where Bool fields share a byte at distinct bit
positions (the MemoryMap overlap invariant), applying a change to one
Bool field leaves the decoded value of every other Bool field in that
byte unchanged. -/
theorem C8_bool_sibling_bits (tags : TagDict) (frame : List ℕ)
    (fname gname : String) (ffi gfi : FieldInfo) (v : Bool)
    (hf : lookupTag tags fname = some ffi)
    (hg : lookupTag tags gname = some gfi)
    (hft : ffi.type = .bool) (hgt : gfi.type = .bool)
    (hsame : gfi.offset = ffi.offset) (hbitne : gfi.bit ≠ ffi.bit)
    (hfb : ffi.bit < 8) (hgb : gfi.bit < 8)
    (hoff : ffi.offset < frame.length)
    (hbytes : ∀ b ∈ frame, b < 256) :
    ∃ patched, applyChanges tags frame [(fname, .wbool v)] = .ok patched ∧
      extractField patched gfi = extractField frame gfi := by
  obtain ⟨b, hb⟩ : ∃ x, frame[ffi.offset]? = some x :=
    ⟨frame[ffi.offset], List.getElem?_eq_getElem hoff⟩
  have hblt : b < 256 := hbytes b (List.getElem?_mem hb)
  have hsound := bit_set_sound b hblt ffi.bit hfb
  have hpres := bit_set_preserves b hblt ffi.bit hfb gfi.bit hgb
  rcases hpres with h | hpres
  · exact absurd h.symm hbitne
  have happly : applyChange tags frame (fname, .wbool v) =
      set_bool frame ffi.offset ffi.bit v := by
    simp [applyChange, hf, hft, toPyBool]
  have hb' : frame[gfi.offset]? = some b := by rw [hsame]; exact hb
  by_cases hcv : (b / 2 ^ ffi.bit % 2 == 1) = v
  · have hsb : set_bool frame ffi.offset ffi.bit v = .ok frame := by
      simp only [set_bool, hb]
      rw [if_pos hcv]
    exact ⟨frame, by simp only [applyChanges, happly, hsb]; rfl, rfl⟩
  · cases v with
    | false =>
      have hcur : b / 2 ^ ffi.bit % 2 = 1 := by
        rcases Nat.mod_two_eq_zero_or_one (b / 2 ^ ffi.bit) with h0 | h1
        · exact absurd (by simp [h0]) hcv
        · exact h1
      have hsb : set_bool frame ffi.offset ffi.bit false =
          .ok (frame.set ffi.offset (b - 2 ^ ffi.bit)) := by
        simp only [set_bool, hb]
        rw [if_neg hcv]
        rfl
      refine ⟨frame.set ffi.offset (b - 2 ^ ffi.bit),
        by simp only [applyChanges, happly, hsb]; rfl, ?_⟩
      have hget : (frame.set ffi.offset (b - 2 ^ ffi.bit))[gfi.offset]? =
          some (b - 2 ^ ffi.bit) := by
        rw [hsame]; exact List.getElem?_set_self hoff
      simp only [extractField, hgt, hget, hb']
      rw [hpres.2 hcur]
    | true =>
      have hcur : b / 2 ^ ffi.bit % 2 ≠ 1 := by
        intro h1
        exact hcv (by simp [h1])
      have hsb : set_bool frame ffi.offset ffi.bit true =
          .ok (frame.set ffi.offset (b + 2 ^ ffi.bit)) := by
        simp only [set_bool, hb]
        rw [if_neg hcv]
        simp only [if_true]
        rw [if_pos ((hsound.1 hcur).1)]
      refine ⟨frame.set ffi.offset (b + 2 ^ ffi.bit),
        by simp only [applyChanges, happly, hsb]; rfl, ?_⟩
      have hget : (frame.set ffi.offset (b + 2 ^ ffi.bit))[gfi.offset]? =
          some (b + 2 ^ ffi.bit) := by
        rw [hsame]; exact List.getElem?_set_self hoff
      simp only [extractField, hgt, hget, hb']
      rw [hpres.1 hcur]

/-- C8 witness: two Bool fields at byte 0, bits 0 and 1; setting `f`
(bit 0) in the frame `[2]` leaves `g` (bit 1) decoding unchanged. -/
theorem C8_bool_sibling_bits_witness :
    ∃ patched, applyChanges [("f", ⟨.bool, 0, 0, 1⟩), ("g", ⟨.bool, 0, 1, 1⟩)] [2]
        [("f", .wbool true)] = .ok patched ∧
      extractField patched ⟨.bool, 0, 1, 1⟩ = extractField [2] ⟨.bool, 0, 1, 1⟩ :=
  C8_bool_sibling_bits [("f", ⟨.bool, 0, 0, 1⟩), ("g", ⟨.bool, 0, 1, 1⟩)] [2]
    "f" "g" ⟨.bool, 0, 0, 1⟩ ⟨.bool, 0, 1, 1⟩ true rfl rfl rfl rfl rfl
    (by decide) (by decide) (by decide) (by decide) (by decide)

/-- The bytes a field occupies in the frame (Bool and Byte read a single
byte; the multi-byte types read `size` bytes). -/
def byteSpan (fi : FieldInfo) : ℕ :=
  match fi.type with
  | .bool => 1
  | .byte => 1
  | _ => fi.size

/-- A value valid for a field's declared type, per the spec's
DecodedSnapshot domains: boolean for Bool, the unsigned/signed ranges
for the integer types, a finite binary32 pattern for Real. -/
def validFor : S7Type → WriteVal → Prop
  | .bool, .wbool _ => True
  | .byte, .wint n => 0 ≤ n ∧ n < 2 ^ 8
  | .word, .wint n => 0 ≤ n ∧ n < 2 ^ 16
  | .int, .wint n => -(2 ^ 15) ≤ n ∧ n < 2 ^ 15
  | .dword, .wint n => 0 ≤ n ∧ n < 2 ^ 32
  | .dint, .wint n => -(2 ^ 31) ≤ n ∧ n < 2 ^ 31
  | .time, .wint n => -(2 ^ 31) ≤ n ∧ n < 2 ^ 31
  | .real, .wreal bits => bits < 2 ^ 32 ∧ bits / 2 ^ 23 % 2 ^ 8 ≠ 255
  | _, _ => False

/-- The snapshot value the claim expects back from the round trip: the
written value itself, except that a Real reads back as its exact value
rounded to 4 decimal digits. -/
def roundTrip (t : S7Type) (v : WriteVal) : PlcVal :=
  match t, v with
  | .bool, .wbool b => .vbool b
  | .real, .wreal bits => .vreal (round4 (b32ToRat bits))
  | _, .wint n => .vint n
  | _, _ => .vint 0

lemma encBE_length : ∀ k m, (encBE k m).length = k := by
  intro k
  induction k with
  | zero => intro m; rfl
  | succ k ih => intro m; simp [encBE, ih]

lemma decBE_foldl : ∀ k m a : ℕ, m < 2 ^ (8 * k) →
    (encBE k m).foldl (fun a x => 256 * a + x) a = a * 2 ^ (8 * k) + m := by
  intro k
  induction k with
  | zero =>
    intro m a hm
    have : m = 0 := by simpa using hm
    simp [encBE, this]
  | succ k ih =>
    intro m a hm
    simp only [encBE, List.foldl_cons]
    rw [ih (m % 2 ^ (8 * k)) _ (Nat.mod_lt _ (by positivity))]
    calc (256 * a + m / 2 ^ (8 * k)) * 2 ^ (8 * k) + m % 2 ^ (8 * k)
        = a * (2 ^ (8 * k) * 256) + (2 ^ (8 * k) * (m / 2 ^ (8 * k)) + m % 2 ^ (8 * k)) := by
          ring
      _ = a * (2 ^ (8 * k) * 256) + m := by rw [Nat.div_add_mod]
      _ = a * 2 ^ (8 * (k + 1)) + m := by
          rw [show 8 * (k + 1) = 8 * k + 8 by ring, pow_add]
          norm_num

/-- Big-endian encode then decode is the identity on in-range values. -/
lemma decBE_encBE (k m : ℕ) (hm : m < 2 ^ (8 * k)) : decBE (encBE k m) = m := by
  have h := decBE_foldl k m 0 hm
  simpa [decBE] using h

/-- Reading back the byte range a splice just wrote yields the written
bytes, provided the range lies inside the frame. -/
lemma spliceBytes_slice (frame bs : List ℕ) (o : ℕ)
    (h : o + bs.length ≤ frame.length) :
    ((spliceBytes frame o bs).drop o).take bs.length = bs := by
  have ho : o ≤ frame.length := le_trans (Nat.le_add_right _ _) h
  have hmin : min o frame.length = o := min_eq_left ho
  have htl : (frame.take o).length = o := by
    simp [List.length_take, hmin]
  simp only [spliceBytes, hmin]
  rw [List.append_assoc, List.drop_left' htl, List.take_left' rfl]

/-- Decoding a multi-byte field right after splicing its encoded bytes
into the frame sees exactly those bytes. -/
lemma extract_splice_multi (frame : List ℕ) (fi : FieldInfo) (m k : ℕ)
    (hmulti : fi.type = .int ∨ fi.type = .word ∨ fi.type = .dword ∨
      fi.type = .dint ∨ fi.type = .time ∨ fi.type = .real)
    (hk : fi.size = k)
    (hlen : fi.offset + k ≤ frame.length) :
    extractField (spliceBytes frame fi.offset (encBE k m)) fi =
      .ok (some (decodeMulti fi.type (encBE k m))) := by
  have hbs : (encBE k m).length = k := encBE_length _ _
  have hslice : ((spliceBytes frame fi.offset (encBE k m)).drop fi.offset).take
      ((encBE k m).length) = encBE k m :=
    spliceBytes_slice _ _ _ (by rw [hbs]; exact hlen)
  rw [hbs] at hslice
  unfold extractField
  rcases hmulti with h | h | h | h | h | h <;>
    rw [h] <;>
    simp only [hk, hslice, hbs, lt_irrefl, if_false]

/-- C1: for every supported field type, every map containing a field
named `name`, every frame long enough to contain the field's byte range
(with genuine byte entries), and every value valid for the field's
declared type, decoding the frame produced by applying the change set
`{name: v}` yields `v` back at that field — for Real fields modulo the
declared rounding to 4 decimal digits (`roundTrip`). -/
theorem C1_codec_roundtrip (tags : TagDict) (frame : List ℕ) (name : String)
    (fi : FieldInfo) (v : WriteVal)
    (hlook : lookupTag tags name = some fi)
    (hsize : fi.size = typeSize fi.type)
    (hbit : fi.bit < 8)
    (hbytes : ∀ b ∈ frame, b < 256)
    (hlen : fi.offset + byteSpan fi ≤ frame.length)
    (hv : validFor fi.type v) :
    ∃ patched, applyChanges tags frame [(name, v)] = .ok patched ∧
      extractField patched fi = .ok (some (roundTrip fi.type v)) := by
  cases ht : fi.type with
  | bool =>
    cases v with
    | wint n => rw [ht] at hv; simp [validFor] at hv
    | wreal bits => rw [ht] at hv; simp [validFor] at hv
    | wbool bv =>
      have hspan : byteSpan fi = 1 := by unfold byteSpan; rw [ht]
      rw [hspan] at hlen
      have hoff : fi.offset < frame.length := by omega
      obtain ⟨b, hb⟩ : ∃ x, frame[fi.offset]? = some x :=
        ⟨frame[fi.offset], List.getElem?_eq_getElem hoff⟩
      have hblt : b < 256 := hbytes b (List.getElem?_mem hb)
      have hsound := bit_set_sound b hblt fi.bit hbit
      have happly : applyChange tags frame (name, .wbool bv) =
          set_bool frame fi.offset fi.bit bv := by
        simp [applyChange, hlook, ht, toPyBool]
      by_cases hcv : (b / 2 ^ fi.bit % 2 == 1) = bv
      · have hsb : set_bool frame fi.offset fi.bit bv = .ok frame := by
          simp only [set_bool, hb]
          rw [if_pos hcv]
        refine ⟨frame, by simp only [applyChanges, happly, hsb]; rfl, ?_⟩
        simp only [extractField, ht, hb, hcv]
        rfl
      · cases bv with
        | false =>
          have hcur : b / 2 ^ fi.bit % 2 = 1 := by
            rcases Nat.mod_two_eq_zero_or_one (b / 2 ^ fi.bit) with h0 | h1
            · exact absurd (by simp [h0]) hcv
            · exact h1
          have hsb : set_bool frame fi.offset fi.bit false =
              .ok (frame.set fi.offset (b - 2 ^ fi.bit)) := by
            simp only [set_bool, hb]
            rw [if_neg hcv]
            rfl
          refine ⟨frame.set fi.offset (b - 2 ^ fi.bit),
            by simp only [applyChanges, happly, hsb]; rfl, ?_⟩
          have hget : (frame.set fi.offset (b - 2 ^ fi.bit))[fi.offset]? =
              some (b - 2 ^ fi.bit) := List.getElem?_set_self hoff
          have hbitv : ((b - 2 ^ fi.bit) / 2 ^ fi.bit % 2 == 1) = false := by
            simpa using hsound.2 hcur
          simp only [extractField, ht, hget, hbitv]
          rfl
        | true =>
          have hcur : b / 2 ^ fi.bit % 2 ≠ 1 := by
            intro h1
            exact hcv (by simp [h1])
          have hsb : set_bool frame fi.offset fi.bit true =
              .ok (frame.set fi.offset (b + 2 ^ fi.bit)) := by
            simp only [set_bool, hb]
            rw [if_neg hcv]
            simp only [if_true]
            rw [if_pos ((hsound.1 hcur).1)]
          refine ⟨frame.set fi.offset (b + 2 ^ fi.bit),
            by simp only [applyChanges, happly, hsb]; rfl, ?_⟩
          have hget : (frame.set fi.offset (b + 2 ^ fi.bit))[fi.offset]? =
              some (b + 2 ^ fi.bit) := List.getElem?_set_self hoff
          have hbitv : ((b + 2 ^ fi.bit) / 2 ^ fi.bit % 2 == 1) = true := by
            simpa using (hsound.1 hcur).2
          simp only [extractField, ht, hget, hbitv]
          rfl
  | byte =>
    cases v with
    | wbool b => rw [ht] at hv; simp [validFor] at hv
    | wreal bits => rw [ht] at hv; simp [validFor] at hv
    | wint n =>
      rw [ht] at hv
      have hspan : byteSpan fi = 1 := by unfold byteSpan; rw [ht]
      rw [hspan] at hlen
      have hoff : fi.offset < frame.length := by omega
      have hac : applyChange tags frame (name, .wint n) =
          set_byte frame fi.offset n := by
        simp [applyChange, hlook, ht, toPyInt]
        rfl
      have hset : set_byte frame fi.offset n =
          .ok (frame.set fi.offset (n % 256).toNat) := by
        simp only [set_byte]
        rw [if_pos hoff]
      have happ : applyChanges tags frame [(name, .wint n)] =
          .ok (frame.set fi.offset (n % 256).toNat) := by
        simp [applyChanges, hac, hset]
        rfl
      refine ⟨_, happ, ?_⟩
      have hget : (frame.set fi.offset (n % 256).toNat)[fi.offset]? =
          some ((n % 256).toNat) := List.getElem?_set_self hoff
      simp only [extractField, ht, hget, roundTrip]
      have hval : (((n % 256).toNat : ℤ)) = n := by
        rcases hv with ⟨h1, h2⟩
        omega
      rw [hval]
  | int =>
    cases v with
    | wbool b => rw [ht] at hv; simp [validFor] at hv
    | wreal bits => rw [ht] at hv; simp [validFor] at hv
    | wint n =>
      rw [ht] at hv
      have hsz : fi.size = 2 := by rw [hsize, ht]; rfl
      have hspan : byteSpan fi = fi.size := by unfold byteSpan; rw [ht]
      rw [hspan, hsz] at hlen
      have hguard : ¬ (n < -(2 ^ 15) ∨ (2 ^ 15 : ℤ) ≤ n) := by
        rcases hv with ⟨h1, h2⟩; omega
      have hac : applyChange tags frame (name, .wint n) =
          set_int frame fi.offset n := by
        simp [applyChange, hlook, ht, toPyInt]
        rfl
      have hset : set_int frame fi.offset n =
          .ok (spliceBytes frame fi.offset (encBE 2 (n % 2 ^ 16).toNat)) := by
        simp only [set_int]
        rw [if_neg hguard]
      have happ : applyChanges tags frame [(name, .wint n)] =
          .ok (spliceBytes frame fi.offset (encBE 2 (n % 2 ^ 16).toNat)) := by
        simp [applyChanges, hac, hset]
        rfl
      refine ⟨_, happ, ?_⟩
      rw [extract_splice_multi frame fi _ 2 (Or.inl ht) hsz hlen]
      have hpow : (2 : ℕ) ^ (8 * 2) = 65536 := rfl
      have hm : (n % (2 : ℤ) ^ 16).toNat < 2 ^ (8 * 2) := by omega
      simp only [decodeMulti, ht, decBE_encBE 2 _ hm, toSigned, roundTrip,
        Except.ok.injEq, Option.some.injEq, PlcVal.vint.injEq]
      rcases hv with ⟨h1, h2⟩
      have hpow1 : (2 : ℕ) ^ (16 - 1) = 32768 := rfl
      have hpow2 : ((2 : ℤ) ^ 16 : ℤ) = 65536 := rfl
      split <;> omega
  | word =>
    cases v with
    | wbool b => rw [ht] at hv; simp [validFor] at hv
    | wreal bits => rw [ht] at hv; simp [validFor] at hv
    | wint n =>
      rw [ht] at hv
      have hsz : fi.size = 2 := by rw [hsize, ht]; rfl
      have hspan : byteSpan fi = fi.size := by unfold byteSpan; rw [ht]
      rw [hspan, hsz] at hlen
      have hguard : ¬ (n < 0 ∨ (2 ^ 16 : ℤ) ≤ n) := by
        rcases hv with ⟨h1, h2⟩; omega
      have hac : applyChange tags frame (name, .wint n) =
          set_word frame fi.offset n := by
        simp [applyChange, hlook, ht, toPyInt]
        rfl
      have hset : set_word frame fi.offset n =
          .ok (spliceBytes frame fi.offset (encBE 2 n.toNat)) := by
        simp only [set_word]
        rw [if_neg hguard]
      have happ : applyChanges tags frame [(name, .wint n)] =
          .ok (spliceBytes frame fi.offset (encBE 2 n.toNat)) := by
        simp [applyChanges, hac, hset]
        rfl
      refine ⟨_, happ, ?_⟩
      rw [extract_splice_multi frame fi _ 2 (Or.inr (Or.inl ht)) hsz hlen]
      have hpow : (2 : ℕ) ^ (8 * 2) = 65536 := rfl
      have hm : n.toNat < 2 ^ (8 * 2) := by
        rcases hv with ⟨h1, h2⟩; omega
      simp only [decodeMulti, ht, decBE_encBE 2 _ hm, roundTrip,
        Except.ok.injEq, Option.some.injEq, PlcVal.vint.injEq]
      rcases hv with ⟨h1, h2⟩
      omega
  | dword =>
    cases v with
    | wbool b => rw [ht] at hv; simp [validFor] at hv
    | wreal bits => rw [ht] at hv; simp [validFor] at hv
    | wint n =>
      rw [ht] at hv
      have hsz : fi.size = 4 := by rw [hsize, ht]; rfl
      have hspan : byteSpan fi = fi.size := by unfold byteSpan; rw [ht]
      rw [hspan, hsz] at hlen
      have hguard : ¬ (n < 0 ∨ (2 ^ 32 : ℤ) ≤ n) := by
        rcases hv with ⟨h1, h2⟩; omega
      have hac : applyChange tags frame (name, .wint n) =
          set_dword frame fi.offset n := by
        simp [applyChange, hlook, ht, toPyInt]
        rfl
      have hset : set_dword frame fi.offset n =
          .ok (spliceBytes frame fi.offset (encBE 4 n.toNat)) := by
        simp only [set_dword]
        rw [if_neg hguard]
      have happ : applyChanges tags frame [(name, .wint n)] =
          .ok (spliceBytes frame fi.offset (encBE 4 n.toNat)) := by
        simp [applyChanges, hac, hset]
        rfl
      refine ⟨_, happ, ?_⟩
      rw [extract_splice_multi frame fi _ 4 (Or.inr (Or.inr (Or.inl ht))) hsz hlen]
      have hpow : (2 : ℕ) ^ (8 * 4) = 4294967296 := rfl
      have hm : n.toNat < 2 ^ (8 * 4) := by
        rcases hv with ⟨h1, h2⟩; omega
      simp only [decodeMulti, ht, decBE_encBE 4 _ hm, roundTrip,
        Except.ok.injEq, Option.some.injEq, PlcVal.vint.injEq]
      rcases hv with ⟨h1, h2⟩
      omega
  | dint =>
    cases v with
    | wbool b => rw [ht] at hv; simp [validFor] at hv
    | wreal bits => rw [ht] at hv; simp [validFor] at hv
    | wint n =>
      rw [ht] at hv
      have hsz : fi.size = 4 := by rw [hsize, ht]; rfl
      have hspan : byteSpan fi = fi.size := by unfold byteSpan; rw [ht]
      rw [hspan, hsz] at hlen
      have hguard : ¬ (n < -(2 ^ 31) ∨ (2 ^ 31 : ℤ) ≤ n) := by
        rcases hv with ⟨h1, h2⟩; omega
      have hac : applyChange tags frame (name, .wint n) =
          set_dint frame fi.offset n := by
        simp [applyChange, hlook, ht, toPyInt]
        rfl
      have hset : set_dint frame fi.offset n =
          .ok (spliceBytes frame fi.offset (encBE 4 (n % 2 ^ 32).toNat)) := by
        simp only [set_dint]
        rw [if_neg hguard]
      have happ : applyChanges tags frame [(name, .wint n)] =
          .ok (spliceBytes frame fi.offset (encBE 4 (n % 2 ^ 32).toNat)) := by
        simp [applyChanges, hac, hset]
        rfl
      refine ⟨_, happ, ?_⟩
      rw [extract_splice_multi frame fi _ 4 (Or.inr (Or.inr (Or.inr (Or.inl ht)))) hsz hlen]
      have hpow : (2 : ℕ) ^ (8 * 4) = 4294967296 := rfl
      have hm : (n % (2 : ℤ) ^ 32).toNat < 2 ^ (8 * 4) := by omega
      simp only [decodeMulti, ht, decBE_encBE 4 _ hm, toSigned, roundTrip,
        Except.ok.injEq, Option.some.injEq, PlcVal.vint.injEq]
      rcases hv with ⟨h1, h2⟩
      have hpow1 : (2 : ℕ) ^ (32 - 1) = 2147483648 := rfl
      have hpow2 : ((2 : ℤ) ^ 32 : ℤ) = 4294967296 := rfl
      split <;> omega
  | time =>
    cases v with
    | wbool b => rw [ht] at hv; simp [validFor] at hv
    | wreal bits => rw [ht] at hv; simp [validFor] at hv
    | wint n =>
      rw [ht] at hv
      have hsz : fi.size = 4 := by rw [hsize, ht]; rfl
      have hspan : byteSpan fi = fi.size := by unfold byteSpan; rw [ht]
      rw [hspan, hsz] at hlen
      have hguard : ¬ (n < -(2 ^ 31) ∨ (2 ^ 31 : ℤ) ≤ n) := by
        rcases hv with ⟨h1, h2⟩; omega
      have hac : applyChange tags frame (name, .wint n) =
          set_dint frame fi.offset n := by
        simp [applyChange, hlook, ht, toPyInt]
        rfl
      have hset : set_dint frame fi.offset n =
          .ok (spliceBytes frame fi.offset (encBE 4 (n % 2 ^ 32).toNat)) := by
        simp only [set_dint]
        rw [if_neg hguard]
      have happ : applyChanges tags frame [(name, .wint n)] =
          .ok (spliceBytes frame fi.offset (encBE 4 (n % 2 ^ 32).toNat)) := by
        simp [applyChanges, hac, hset]
        rfl
      refine ⟨_, happ, ?_⟩
      rw [extract_splice_multi frame fi _ 4
        (Or.inr (Or.inr (Or.inr (Or.inr (Or.inl ht))))) hsz hlen]
      have hpow : (2 : ℕ) ^ (8 * 4) = 4294967296 := rfl
      have hm : (n % (2 : ℤ) ^ 32).toNat < 2 ^ (8 * 4) := by omega
      simp only [decodeMulti, ht, decBE_encBE 4 _ hm, toSigned, roundTrip,
        Except.ok.injEq, Option.some.injEq, PlcVal.vint.injEq]
      rcases hv with ⟨h1, h2⟩
      have hpow1 : (2 : ℕ) ^ (32 - 1) = 2147483648 := rfl
      have hpow2 : ((2 : ℤ) ^ 32 : ℤ) = 4294967296 := rfl
      split <;> omega
  | real =>
    cases v with
    | wbool b => rw [ht] at hv; simp [validFor] at hv
    | wint n => rw [ht] at hv; simp [validFor] at hv
    | wreal bits =>
      rw [ht] at hv
      rcases hv with ⟨h1, h2⟩
      have hsz : fi.size = 4 := by rw [hsize, ht]; rfl
      have hspan : byteSpan fi = fi.size := by unfold byteSpan; rw [ht]
      rw [hspan, hsz] at hlen
      have hmod : bits % 2 ^ 32 = bits := Nat.mod_eq_of_lt h1
      have hmodN : bits % 4294967296 = bits := hmod
      have happ : applyChanges tags frame [(name, .wreal bits)] =
          .ok (spliceBytes frame fi.offset (encBE 4 bits)) := by
        simp [applyChanges, applyChange, hlook, ht, toPyFloatBits, set_real, hmodN]
        show Except.ok (spliceBytes frame fi.offset (encBE 4 (bits % 4294967296))) =
          Except.ok (spliceBytes frame fi.offset (encBE 4 bits))
        rw [hmodN]
      refine ⟨_, happ, ?_⟩
      rw [extract_splice_multi frame fi _ 4
        (Or.inr (Or.inr (Or.inr (Or.inr (Or.inr ht))))) hsz hlen]
      have hm : bits < 2 ^ (8 * 4) := h1
      simp only [decodeMulti, ht, decBE_encBE 4 _ hm, roundTrip]

/-- C1 witness: writing `-5` to an Int field at offset 0 of a two-byte
frame and decoding it back yields `-5`. -/
theorem C1_codec_roundtrip_witness :
    ∃ patched, applyChanges [("x", ⟨.int, 0, 0, 2⟩)] [0, 0]
        [("x", .wint (-5))] = .ok patched ∧
      extractField patched ⟨.int, 0, 0, 2⟩ =
        .ok (some (roundTrip .int (.wint (-5)))) :=
  C1_codec_roundtrip [("x", ⟨.int, 0, 0, 2⟩)] [0, 0] "x" ⟨.int, 0, 0, 2⟩
    (.wint (-5)) rfl rfl (by decide) (by decide) (by decide)
    (by exact ⟨by norm_num, by norm_num⟩)

/-- The bytes a field makes the block cover under the total-length rule
of `parse_siemens_db`: offset plus size, Bool counting 1 byte. -/
def endOf (fi : FieldInfo) : ℕ :=
  fi.offset + (if fi.type = .bool then 1 else fi.size)

/-- The first byte not yet fully used at SCL cursor `(b, i)`: byte `b`
itself is partially used while a Bool run is open (`i > 0`). -/
def cursorEnd (b i : ℕ) : ℕ := if i > 0 then b + 1 else b

lemma self_mem_vals_dictInsert (d : TagDict) (k : String) (v : FieldInfo) :
    v ∈ vals (dictInsert d k v) := by
  unfold dictInsert vals
  by_cases h : d.any (fun p => p.1 = k)
  · rw [if_pos h]
    rcases List.any_eq_true.mp h with ⟨p, hp, hpk⟩
    have hpk' : p.1 = k := of_decide_eq_true hpk
    refine List.mem_map.mpr ⟨(k, v), List.mem_map.mpr ⟨p, hp, ?_⟩, rfl⟩
    rw [if_pos hpk']
  · rw [if_neg h]
    simp

lemma mem_vals_dictInsert {d : TagDict} {k : String} {v fi : FieldInfo}
    (h : fi ∈ vals (dictInsert d k v)) : fi = v ∨ fi ∈ vals d := by
  unfold dictInsert at h
  unfold vals at h ⊢
  by_cases hany : d.any (fun p => p.1 = k)
  · rw [if_pos hany] at h
    rcases List.mem_map.mp h with ⟨q, hq, hqv⟩
    rcases List.mem_map.mp hq with ⟨p, hp, hpq⟩
    by_cases hpk : p.1 = k
    · rw [if_pos hpk] at hpq
      left
      rw [← hpq] at hqv
      exact hqv.symm ▸ rfl
    · rw [if_neg hpk] at hpq
      right
      exact List.mem_map.mpr ⟨p, hp, by rw [hpq, hqv]⟩
  · rw [if_neg hany] at h
    rw [List.map_append] at h
    rcases List.mem_append.mp h with h1 | h2
    · exact Or.inr h1
    · left
      simpa using h2

lemma dictInsert_ne_nil (d : TagDict) (k : String) (v : FieldInfo) :
    dictInsert d k v ≠ [] := by
  intro hnil
  have := self_mem_vals_dictInsert d k v
  rw [hnil] at this
  simp [vals] at this

lemma foldl_max_spec (key : FieldInfo → ℕ) :
    ∀ (xs : List FieldInfo) (a : FieldInfo),
      (xs.foldl (fun best y => if key y > key best then y else best) a = a ∨
        xs.foldl (fun best y => if key y > key best then y else best) a ∈ xs) ∧
      key a ≤ key (xs.foldl (fun best y => if key y > key best then y else best) a) ∧
      ∀ y ∈ xs, key y ≤ key (xs.foldl (fun best y => if key y > key best then y else best) a) := by
  intro xs
  induction xs with
  | nil => intro a; exact ⟨Or.inl rfl, le_refl _, by simp⟩
  | cons x xs ih =>
    intro a
    simp only [List.foldl_cons]
    by_cases hx : key x > key a
    · rw [if_pos hx]
      rcases ih x with ⟨hmem, hle, hall⟩
      refine ⟨?_, ?_, ?_⟩
      · rcases hmem with h | h
        · exact Or.inr (by rw [h]; exact List.mem_cons_self _ _)
        · exact Or.inr (List.mem_cons_of_mem _ h)
      · exact le_trans (le_of_lt hx) hle
      · intro y hy
        rcases List.mem_cons.mp hy with rfl | hy'
        · exact hle
        · exact hall y hy'
    · rw [if_neg hx]
      rcases ih a with ⟨hmem, hle, hall⟩
      refine ⟨?_, hle, ?_⟩
      · rcases hmem with h | h
        · exact Or.inl h
        · exact Or.inr (List.mem_cons_of_mem _ h)
      · intro y hy
        rcases List.mem_cons.mp hy with rfl | hy'
        · exact le_trans (le_of_not_lt hx) hle
        · exact hall y hy'

/-- Python's `max(values, key=...)` returns a member whose key bounds
every member's key. -/
lemma maxByKey_spec (key : FieldInfo → ℕ) (xs : List FieldInfo) (c : FieldInfo)
    (h : maxByKey key xs = some c) : c ∈ xs ∧ ∀ y ∈ xs, key y ≤ key c := by
  cases xs with
  | nil => simp [maxByKey] at h
  | cons x xs =>
    simp only [maxByKey, Option.some.injEq] at h
    rcases foldl_max_spec key xs x with ⟨hmem, hle, hall⟩
    rw [h] at hmem hle hall
    refine ⟨?_, ?_⟩
    · rcases hmem with h' | h'
      · exact h' ▸ List.mem_cons_self _ _
      · exact List.mem_cons_of_mem _ h'
    · intro y hy
      rcases List.mem_cons.mp hy with rfl | hy'
      · exact hle
      · exact hall y hy'

/-- Inserting a Bool at cursor position `(B, I)` keeps every field's end
below the new cursor end and makes the inserted field the strict key
maximum. -/
lemma scl_step_bool (d : TagDict) (name : String) (b i B I : ℕ)
    (h1 : cursorEnd b i ≤ B + 1) (h2 : 10 * b + i ≤ 10 * B + I)
    (hbound : ∀ fi ∈ vals d, endOf fi ≤ cursorEnd b i ∧ keyOf fi < 10 * b + i) :
    (∀ fi ∈ vals (dictInsert d name ⟨.bool, B, I, 1⟩),
        endOf fi ≤ cursorEnd B (I + 1) ∧ keyOf fi < 10 * B + (I + 1)) ∧
    (∃ fi ∈ vals (dictInsert d name ⟨.bool, B, I, 1⟩),
        endOf fi = cursorEnd B (I + 1) ∧
        ∀ g ∈ vals (dictInsert d name ⟨.bool, B, I, 1⟩),
          g ≠ fi → keyOf g < keyOf fi) := by
  have hce : cursorEnd B (I + 1) = B + 1 := by simp [cursorEnd]
  have hvend : endOf ⟨.bool, B, I, 1⟩ = B + 1 := by simp [endOf]
  have hvkey : keyOf ⟨.bool, B, I, 1⟩ = 10 * B + I := by simp [keyOf]
  constructor
  · intro fi hfi
    rcases mem_vals_dictInsert hfi with rfl | hfi'
    · exact ⟨by omega, by omega⟩
    · rcases hbound fi hfi' with ⟨he, hk⟩
      exact ⟨by omega, by omega⟩
  · refine ⟨⟨.bool, B, I, 1⟩, self_mem_vals_dictInsert _ _ _, by omega, ?_⟩
    intro g hg hne
    rcases mem_vals_dictInsert hg with rfl | hg'
    · exact absurd rfl hne
    · rcases hbound g hg' with ⟨_, hk⟩
      omega

/-- Inserting a non-Bool at byte `b2` (after closing the bit run and
word-aligning) keeps every field's end below the new cursor end and
makes the inserted field the strict key maximum. -/
lemma scl_step_nonbool (d : TagDict) (name : String) (t : S7Type) (b i b2 : ℕ)
    (hb : ¬ t = .bool)
    (h2a : cursorEnd b i ≤ b2) (h2b : 10 * b + i ≤ 10 * b2)
    (hbound : ∀ fi ∈ vals d, endOf fi ≤ cursorEnd b i ∧ keyOf fi < 10 * b + i) :
    (∀ fi ∈ vals (dictInsert d name ⟨t, b2, 0, typeSize t⟩),
        endOf fi ≤ cursorEnd (b2 + typeSize t) 0 ∧
        keyOf fi < 10 * (b2 + typeSize t) + 0) ∧
    (∃ fi ∈ vals (dictInsert d name ⟨t, b2, 0, typeSize t⟩),
        endOf fi = cursorEnd (b2 + typeSize t) 0 ∧
        ∀ g ∈ vals (dictInsert d name ⟨t, b2, 0, typeSize t⟩),
          g ≠ fi → keyOf g < keyOf fi) := by
  have hsz : 1 ≤ typeSize t := by cases t <;> decide
  have hce : cursorEnd (b2 + typeSize t) 0 = b2 + typeSize t := by simp [cursorEnd]
  have hvend : endOf ⟨t, b2, 0, typeSize t⟩ = b2 + typeSize t := by
    simp [endOf, hb]
  have hvkey : keyOf ⟨t, b2, 0, typeSize t⟩ = 10 * b2 := by simp [keyOf]
  constructor
  · intro fi hfi
    rcases mem_vals_dictInsert hfi with rfl | hfi'
    · exact ⟨by omega, by omega⟩
    · rcases hbound fi hfi' with ⟨he, hk⟩
      exact ⟨by omega, by omega⟩
  · refine ⟨⟨t, b2, 0, typeSize t⟩, self_mem_vals_dictInsert _ _ _, by omega, ?_⟩
    intro g hg hne
    rcases mem_vals_dictInsert hg with rfl | hg'
    · exact absurd rfl hne
    · rcases hbound g hg' with ⟨_, hk⟩
      omega

/-- Invariant of the SCL cursor loop: every recorded field ends no later
than the cursor's end, keys grow strictly in layout order, and (when any
field exists) the last-placed field ends exactly at the cursor's end and
strictly dominates every other key. -/
lemma parseSCL_inv (ds : List (String × S7Type)) :
    ∀ (d : TagDict) (b i : ℕ), i ≤ 8 →
      (∀ fi ∈ vals d, endOf fi ≤ cursorEnd b i ∧ keyOf fi < 10 * b + i) →
      (d = [] ∨ ∃ fi ∈ vals d, endOf fi = cursorEnd b i ∧
          ∀ g ∈ vals d, g ≠ fi → keyOf g < keyOf fi) →
      ∃ b' i', i' ≤ 8 ∧
        (∀ fi ∈ vals (parseSCL ds d b i),
            endOf fi ≤ cursorEnd b' i' ∧ keyOf fi < 10 * b' + i') ∧
        (parseSCL ds d b i = [] ∨ ∃ fi ∈ vals (parseSCL ds d b i),
            endOf fi = cursorEnd b' i' ∧
            ∀ g ∈ vals (parseSCL ds d b i), g ≠ fi → keyOf g < keyOf fi) := by
  induction ds with
  | nil =>
    intro d b i hi hbound hlast
    exact ⟨b, i, hi, hbound, hlast⟩
  | cons hd tl ih =>
    intro d b i hi hbound hlast
    obtain ⟨name, t⟩ := hd
    by_cases hb : t = .bool
    · subst hb
      by_cases h7 : i > 7
      · have hred : parseSCL ((name, S7Type.bool) :: tl) d b i =
            parseSCL tl (dictInsert d name ⟨.bool, b + 1, 0, 1⟩) (b + 1) (0 + 1) := by
          simp [parseSCL, h7, typeSize]
        rw [hred]
        have hstep := scl_step_bool d name b i (b + 1) 0
          (by unfold cursorEnd; split <;> omega) (by omega) hbound
        exact ih _ _ _ (by omega) hstep.1 (Or.inr hstep.2)
      · have hred : parseSCL ((name, S7Type.bool) :: tl) d b i =
            parseSCL tl (dictInsert d name ⟨.bool, b, i, 1⟩) b (i + 1) := by
          simp [parseSCL, h7, typeSize]
        rw [hred]
        have hstep := scl_step_bool d name b i b i
          (by unfold cursorEnd; split <;> omega) (by omega) hbound
        exact ih _ _ _ (by omega) hstep.1 (Or.inr hstep.2)
    · obtain ⟨b2, hb2eq, h2a, h2b⟩ :
          ∃ b2, (parseSCL ((name, t) :: tl) d b i =
              parseSCL tl (dictInsert d name ⟨t, b2, 0, typeSize t⟩)
                (b2 + typeSize t) 0) ∧
            cursorEnd b i ≤ b2 ∧ 10 * b + i ≤ 10 * b2 := by
        refine ⟨if typeAlign t > 1 ∧ (if i > 0 then b + 1 else b) % 2 ≠ 0
            then (if i > 0 then b + 1 else b) + 1
            else (if i > 0 then b + 1 else b), by simp [parseSCL, hb], ?_, ?_⟩
        · simp only [cursorEnd]
          split_ifs <;> omega
        · split_ifs <;> omega
      rw [hb2eq]
      have hstep := scl_step_nonbool d name t b i b2 hb h2a h2b hbound
      exact ih _ _ _ (by omega) hstep.1 (Or.inr hstep.2)

/-- C3 (amended): for every blueprint that compiles to a non-empty
memory map via the declarative (STRUCT) grammar, the computed
`totalLength` is at least `byteOffset + size` for every field of the
map, with Bool fields counting one byte.  (The tabular grammar does not
enjoy this: see the counterexample.) -/
theorem C3_scl_total_covers (decls : List (String × S7Type))
    (hne : (parse_siemens_db_scl decls).2 ≠ []) :
    ∀ p ∈ (parse_siemens_db_scl decls).2,
      p.2.offset + (if p.2.type = .bool then 1 else p.2.size) ≤
        (parse_siemens_db_scl decls).1 := by
  intro p hp
  obtain ⟨b', i', hi', hbound, hlast⟩ :=
    parseSCL_inv decls [] 0 0 (by omega) (by simp [vals]) (Or.inl rfl)
  have hsnd : (parse_siemens_db_scl decls).2 = parseSCL decls [] 0 0 := by
    unfold parse_siemens_db_scl finalizeMap
    cases hmk : maxByKey keyOf (vals (parseSCL decls [] 0 0)) <;> rfl
  rw [hsnd] at hne hp
  rcases hlast with hnil | ⟨last, hlmem, hlend, hlmax⟩
  · exact absurd hnil hne
  have hvne : vals (parseSCL decls [] 0 0) ≠ [] := by
    intro hv
    cases hout : parseSCL decls [] 0 0 with
    | nil => exact hne hout
    | cons a l => rw [hout] at hv; simp [vals] at hv
  obtain ⟨c, hc⟩ : ∃ c, maxByKey keyOf (vals (parseSCL decls [] 0 0)) = some c := by
    cases hvals : vals (parseSCL decls [] 0 0) with
    | nil => exact absurd hvals hvne
    | cons x xs => exact ⟨_, rfl⟩
  obtain ⟨hcmem, hcmax⟩ := maxByKey_spec keyOf _ c hc
  have hceq : c = last := by
    by_contra hnec
    have h1 := hlmax c hcmem hnec
    have h2 := hcmax last hlmem
    omega
  have htot : (parse_siemens_db_scl decls).1 =
      (if (c.offset + (if c.type = .bool then 1 else c.size)) % 2 ≠ 0
       then (c.offset + (if c.type = .bool then 1 else c.size)) + 1
       else (c.offset + (if c.type = .bool then 1 else c.size))) := by
    unfold parse_siemens_db_scl finalizeMap
    rw [hc]
  have hpmem : p.2 ∈ vals (parseSCL decls [] 0 0) := List.mem_map.mpr ⟨p, hp, rfl⟩
  have hple := (hbound p.2 hpmem).1
  have hcend : endOf c = cursorEnd b' i' := by rw [hceq]; exact hlend
  have hmono : endOf p.2 ≤ endOf c := by omega
  rw [htot]
  unfold endOf at hmono
  by_cases hodd : (c.offset + (if c.type = .bool then 1 else c.size)) % 2 ≠ 0
  · rw [if_pos hodd]; omega
  · rw [if_neg hodd]; omega

/-- C3 witness: the layout of C5's declaration sequence is non-empty and
every field ends within the computed total length. -/
theorem C3_scl_total_covers_witness :
    (parse_siemens_db_scl [("a", .bool), ("b", .bool), ("c", .int), ("d", .bool)]).2 ≠ [] ∧
    ∀ p ∈ (parse_siemens_db_scl [("a", .bool), ("b", .bool), ("c", .int), ("d", .bool)]).2,
      p.2.offset + (if p.2.type = .bool then 1 else p.2.size) ≤
        (parse_siemens_db_scl [("a", .bool), ("b", .bool), ("c", .int), ("d", .bool)]).1 :=
  ⟨by decide,
    C3_scl_total_covers [("a", .bool), ("b", .bool), ("c", .int), ("d", .bool)]
      (by decide)⟩

end Snap7DB
